import Mathlib

/-!
A verification development for the church-budget application (`app.py`).

The two cores are embedded shallowly:

* the receipt-amount extraction heuristic `extract_amount_from_image`
  (regex scanning is modelled character by character on `List Char`;
  `\d` is modelled as the ASCII digits, which covers every input the
  receipts produce);
* the budget-period resolver `get_budget_for_month` together with the
  dashboard / report aggregation code built on top of it.

All definitions are translated from the source; monetary values are
integers (`Int`), utilization percentages are rationals (`ℚ`, the exact
values of the float computations the code performs).
-/

namespace ChurchBudget

/-! ## Characters, digits and number formatting -/

/-- The character class of the regex `[\d,]` (ASCII digits or comma). -/
def isDigitOrComma (c : Char) : Bool := c.isDigit || c = ','

/-- The decimal digit character for `d` (callers only use `d < 10`). -/
def digitChar : Nat → Char
  | 0 => '0' | 1 => '1' | 2 => '2' | 3 => '3' | 4 => '4'
  | 5 => '5' | 6 => '6' | 7 => '7' | 8 => '8' | _ => '9'

/-- Little-endian decimal digits of `n` (empty for `0`); `fuel`-driven so
that the kernel can evaluate it. -/
def digitsLE : Nat → Nat → List Nat
  | 0, _ => []
  | _ + 1, 0 => []
  | fuel + 1, n + 1 => ((n + 1) % 10) :: digitsLE fuel ((n + 1) / 10)

/-- Most-significant-first decimal digit characters of `n`. -/
def natDigits (n : Nat) : List Char :=
  if n = 0 then ['0'] else ((digitsLE n n).reverse.map digitChar)

/-- Value of a most-significant-first digit-character list, accumulator
style (the semantics of Python `int(...)` on a digit string). -/
def digitsToNatFrom : Nat → List Char → Nat
  | a, [] => a
  | a, c :: cs => digitsToNatFrom (10 * a + (c.toNat - 48)) cs

def digitsToNat (l : List Char) : Nat := digitsToNatFrom 0 l

/-- Insert a comma before every character reached with counter `0`
(working over a least-significant-first list); helper for the
thousands-separated rendering of Python `f"{v:,.0f}"`. -/
def revGroup (k : Nat) : List Char → List Char
  | [] => []
  | c :: cs => if k = 0 then ',' :: c :: revGroup 2 cs else c :: revGroup (k - 1) cs

/-- Python `f"{v:,.0f}"`: decimal digits with a comma every three digits
counted from the right. -/
def pyFormat (n : Nat) : List Char :=
  (revGroup 3 (natDigits n).reverse).reverse

/-! ## Substring search and line normalisation -/

/-- Boolean prefix test on character lists. -/
def isPrefixB : List Char → List Char → Bool
  | [], _ => true
  | _ :: _, [] => false
  | a :: as, b :: bs => a = b && isPrefixB as bs

/-- Python `pat in s`: some occurrence of `pat` inside `s`. -/
def containsSub (pat : List Char) : List Char → Bool
  | [] => isPrefixB pat []
  | c :: cs => isPrefixB pat (c :: cs) || containsSub pat cs

/-- Model of `line.strip().replace(" ", "")` as used for keyword detection.  The
`strip()` can only remove leading/trailing whitespace and therefore never
changes any keyword-containment test; removing every ASCII space is the
part that matters and is kept exactly. -/
def stripSpaces (l : List Char) : List Char := l.filter (fun c => c ≠ ' ')

/-- Model of `full_text.split("\n")`. -/
def splitNewline : List Char → List (List Char)
  | [] => [[]]
  | c :: cs =>
    match splitNewline cs with
    | [] => [[]]
    | l :: ls => if c = '\n' then [] :: l :: ls else (c :: l) :: ls

/-- Rejoin lines with `'\n'` (the full OCR text the fallback strategy
scans). -/
def joinLines : List (List Char) → List Char
  | [] => []
  | [l] => l
  | l :: rest => l ++ '\n' :: joinLines rest

/-! ## The regex models

`won_pattern  = ([\d,]{1,12})(?:원)?`   (tokenizer, `re.finditer`)
`won_with_suffix = ([\d,]{1,12})원`      (anchored search, `re.search`)

Both are modelled with Python's leftmost, greedy-with-backtracking
semantics. -/

/-- Length of the leading run of `[\d,]` characters. -/
def runLen : List Char → Nat
  | [] => 0
  | c :: cs => if isDigitOrComma c then runLen cs + 1 else 0

/-- Greedy backtracking of `[\d,]{1,k}원` at the current position: the
largest group length `ℓ ≤ k` whose next character is `'원'` (callers pass
`k ≤` the leading class-run, so the group chars are in class). -/
def tryLen (s : List Char) : Nat → Option Nat
  | 0 => none
  | n + 1 => if (s.drop (n + 1)).head? = some '원' then some (n + 1) else tryLen s n

/-- Match of `([\d,]{1,12})원` starting exactly here: the group length. -/
def wonSuffixMatchAt (s : List Char) : Option Nat :=
  tryLen s (min 12 (runLen s))

/-- Search of `won_with_suffix`: group of the leftmost match. -/
def wonSuffixSearch : List Char → Option (List Char)
  | [] => none
  | c :: cs =>
    match wonSuffixMatchAt (c :: cs) with
    | some n => some ((c :: cs).take n)
    | none => wonSuffixSearch cs

/-- Consume the optional `(?:원)?` after a group. -/
def dropWon : List Char → List Char
  | '원' :: r => r
  | r => r

/-- One step of `won_pattern.finditer`: at a class character take the
greedy group (at most 12 class characters), then consume an optional
`'원'`; continue after the match. `fuel`-driven for kernel evaluation. -/
def wonTokensGo : Nat → List Char → List (List Char)
  | _, [] => []
  | 0, _ => []
  | fuel + 1, c :: cs =>
    if isDigitOrComma c then
      ((c :: cs).take (min 12 (runLen (c :: cs)))) ::
        wonTokensGo fuel (dropWon ((c :: cs).drop (min 12 (runLen (c :: cs)))))
    else wonTokensGo fuel cs

/-- All groups produced by `won_pattern.finditer` over a text. -/
def wonTokens (s : List Char) : List (List Char) := wonTokensGo s.length s

/-- The range check `100 <= val <= 99_999_999`. -/
def inRange (v : Nat) : Bool := 100 ≤ v && v ≤ 99999999

/-- Value of `int(m.group(1).replace(",", ""))` — the group consists of digits and
commas, so after comma removal only digits remain.  (Python raises on an
all-comma group; that group value is modelled as `0`, which every range
check rejects, and no claim exercises it.) -/
def groupVal (tok : List Char) : Nat := digitsToNat (tok.filter (fun c => c ≠ ','))

/-- Model of `extract_won_amount`: tokenize, strip separators, keep the values
that are all-digit and within `[100, 99_999_999]`. -/
def extract_won_amount (s : List Char) : List Nat :=
  (wonTokens s).filterMap (fun tok =>
    let raw := tok.filter (fun c => c ≠ ',')
    if raw ≠ [] ∧ raw.all Char.isDigit then
      let v := digitsToNat raw
      if inRange v then some v else none
    else none)

/-! ## Keywords -/

/-- The anchored total-label of strategy 1 (the redundant second
disjunct `"합계 금액" in stripped.replace(" ", "")` of the source can
never fire on a space-free string and adds nothing). -/
def anchorKW : List Char := "합계금액".toList

/-- The list `total_keywords`, in priority order. -/
def total_keywords : List (List Char) :=
  ["합계금액".toList, "합계 금액".toList, "총합계".toList, "총 합계".toList,
   "결제금액".toList, "결제 금액".toList, "승인금액".toList, "승인 금액".toList,
   "합계".toList, "합 계".toList,
   "총액".toList, "총 액".toList, "합산".toList,
   "받을금액".toList, "받을 금액".toList, "청구금액".toList, "청구 금액".toList,
   "total".toList, "amount".toList]

/-- The list `exclude_keywords`. -/
def exclude_keywords : List (List Char) :=
  ["번호".toList, "일시".toList, "종류".toList, "개월".toList, "상호".toList,
   "주소".toList, "등록".toList, "상점".toList, "정보".toList]

/-- Model of `line_has_exclude`. -/
def line_has_exclude (l : List Char) : Bool :=
  exclude_keywords.any (fun k => containsSub k l)

/-! ## Strategy 1: anchored keyword, same line then forward scan -/

/-- The forward scan after an anchor line: first line whose first
`…원` match is in range wins; an out-of-range first match moves on to the
next line. -/
def scanForward : List (List Char) → Option Nat
  | [] => none
  | l :: rest =>
    match wonSuffixSearch l with
    | some tok => if inRange (groupVal tok) then some (groupVal tok) else scanForward rest
    | none => scanForward rest

/-- Strategy 1 of `extract_amount_from_image`. -/
def strategy1 : List (List Char) → Option Nat
  | [] => none
  | l :: rest =>
    if containsSub anchorKW (stripSpaces l) then
      match
        (match wonSuffixSearch l with
         | some tok => if inRange (groupVal tok) then some (groupVal tok) else none
         | none => none) with
      | some v => some v
      | none =>
        match scanForward rest with
        | some v => some v
        | none => strategy1 rest
    else strategy1 rest

/-! ## Strategy 2: general keyword search with exclusion filtering -/

/-- Candidates contributed by one line (`next` is the following line, if
any): skipped entirely when the space-stripped line carries an exclusion
keyword; otherwise, for every matching total keyword (tagged with its
priority), the amounts of the same line, or of the next line when the
same line has none and the next line has no exclusion keyword. -/
def kwCands (l : List Char) (next : Option (List Char)) : List (Nat × Nat) :=
  if line_has_exclude (stripSpaces l) then []
  else
    total_keywords.enum.foldr (fun pk acc =>
      (if containsSub (stripSpaces pk.2) (stripSpaces l) then
        if extract_won_amount l ≠ [] then (extract_won_amount l).map (fun v => (pk.1, v))
        else
          match next with
          | some nl =>
            if line_has_exclude nl then []
            else (extract_won_amount nl).map (fun v => (pk.1, v))
          | none => []
      else []) ++ acc) []

/-- All strategy-2 candidates, in scan order. -/
def strategy2cands : List (List Char) → List (Nat × Nat)
  | [] => []
  | l :: rest => kwCands l rest.head? ++ strategy2cands rest

/-- Selection `keyword_candidates.sort(key=(priority, -val))`; take the best
(lowest) priority group and return its maximum value. -/
def pickBest (cands : List (Nat × Nat)) : Option Nat :=
  match cands with
  | [] => none
  | c :: cs =>
    let bp := (cs.map Prod.fst).foldl min c.1
    let group := ((c :: cs).filter (fun x => x.1 = bp)).map Prod.snd
    some (group.foldl max 0)

/-! ## The complete extractor -/

/-- The pure core of `extract_amount_from_image` on the OCR text lines:
strategy 1, then strategy 2, then the whole-text fallback maximum. -/
def extract_core (lines : List (List Char)) : Option Nat :=
  match strategy1 lines with
  | some v => some v
  | none =>
    match pickBest (strategy2cands lines) with
    | some v => some v
    | none =>
      match extract_won_amount (joinLines lines) with
      | [] => none
      | v :: vs => some (vs.foldl max v)

/-- The extractor's string result on text lines (`f"{val:,.0f}"`). -/
def extract_amount (lines : List (List Char)) : Option (List Char) :=
  (extract_core lines).map pyFormat

/-- The OCR collaborator's response, as far as the extractor looks at
it: the service error message (empty = no error, Python truthiness of
`response.error.message`) and the recognized full text
(`none` when `full_text_annotation` is absent). -/
structure OCRResponse where
  errorMsg : List Char
  fullText : Option (List Char)

/-- Model of `extract_amount_from_image` from the response on: returns the pair
`(amount_string, full_ocr_text)`. -/
def extract_amount_from_image (resp : OCRResponse) :
    Option (List Char) × Option (List Char) :=
  if resp.errorMsg ≠ [] then (none, none)
  else
    match resp.fullText with
    | none => (none, none)
    | some t =>
      if t = [] then (none, none)
      else (extract_amount (splitNewline t), some t)

/-- An accepted thousands-separator formatting of `v`: digit/comma
characters whose comma removal is exactly the decimal rendering of `v`,
short enough (≤ 12 characters) to be taken as one numeral token by
`won_pattern` / `won_with_suffix`.  Every standard comma-grouping of an
in-range value (at most 10 characters) and every plain digit string of
at most 12 digits is accepted. -/
def acceptedFormat (v : Nat) (f : List Char) : Prop :=
  (∀ c ∈ f, isDigitOrComma c = true) ∧ f.filter (fun c => c ≠ ',') = natDigits v ∧
    f.length ≤ 12

/-! ## Budget entries, transactions and the period resolver -/

/-- A row of the `Budget` sheet after `load_budgets` coercions. -/
structure BudgetEntry where
  category : List Char
  monthly_budget : Int
  year : Int
  month : Int
  notes : List Char
deriving DecidableEq

/-- A transaction as the dashboard/report code consumes it:
`Date` parsed to a (year, month) pair (`none` models `NaT`, which every
date mask excludes), `Amount` coerced to a number. -/
structure Transaction where
  date : Option (Int × Int)
  category : List Char
  amount : Int
deriving DecidableEq

/-- Model of `get_budget_for_month`: strict `Year == year AND Month == month`
filter, no fallback (the `budgets.empty` early return is the same
filter). -/
def get_budget_for_month (budgets : List BudgetEntry) (year month : Int) :
    List BudgetEntry :=
  budgets.filter (fun b => b.year == year && b.month == month)

/-- Sum `month_budgets["Monthly Budget"].sum()` for one queried month. -/
def monthly_budget_total (budgets : List BudgetEntry) (year month : Int) : Int :=
  ((get_budget_for_month budgets year month).map (fun b => b.monthly_budget)).sum

/-- Python `range(a, a + len)` as a list of `Int` months. -/
def monthRange (a len : Nat) : List Int :=
  (List.range' a len).map Int.ofNat

/-- Dashboard `prev_months_budget`: `for m in range(1, current_month)`. -/
def prevMonthsBudget (budgets : List BudgetEntry) (year : Int) (cm : Int) : Int :=
  ((monthRange 1 (cm - 1).toNat).map (fun m => monthly_budget_total budgets year m)).sum

/-- Report `cumulative_budget` (also the excel `budget_by_cat` total
months): `for m in range(1, current_month + 1)`. -/
def cumulative_budget (budgets : List BudgetEntry) (year : Int) (cm : Int) : Int :=
  ((monthRange 1 cm.toNat).map (fun m => monthly_budget_total budgets year m)).sum

/-- Sum of amounts of a transaction list. -/
def sumAmounts (txs : List Transaction) : Int :=
  (txs.map (fun t => t.amount)).sum

/-- Dashboard `this_month_spent` mask:
`(Date.month == current_month) & (Date.year == current_year)`. -/
def thisMonthSpent (txs : List Transaction) (year month : Int) : Int :=
  sumAmounts (txs.filter (fun t =>
    match t.date with
    | some d => d.1 == year && d.2 == month
    | none => false))

/-- Dashboard `prev_months_spent` mask:
`(Date.month < current_month) & (Date.year == current_year)`. -/
def prevMonthsSpent (txs : List Transaction) (year cm : Int) : Int :=
  sumAmounts (txs.filter (fun t =>
    match t.date with
    | some d => d.1 == year && d.2 < cm
    | none => false))

/-- The six dashboard figures computed at lines 629-666 of `app.py`. -/
structure DashFigures where
  monthly_budget : Int
  carryover : Int
  available_budget : Int
  this_month_spent : Int
  remaining : Int
deriving DecidableEq

/-- The dashboard computation for target (`year`, `cm`). -/
def dashboard (budgets : List BudgetEntry) (txs : List Transaction)
    (year cm : Int) : DashFigures :=
  let monthly := monthly_budget_total budgets year cm
  let carry := prevMonthsBudget budgets year cm - prevMonthsSpent txs year cm
  let avail := monthly + carry
  let tms := thisMonthSpent txs year cm
  { monthly_budget := monthly
    carryover := carry
    available_budget := avail
    this_month_spent := tms
    remaining := avail - tms }

/-! ## Per-category aggregation (excel sheet 4 and report preview) -/

/-- Accumulate into a Python dict kept as an insertion-ordered
association list: `d[cat] = d.get(cat, 0) + v`. -/
def addToCat : List (List Char × Int) → List Char → Int → List (List Char × Int)
  | [], c, v => [(c, v)]
  | (c', v') :: rest, c, v =>
    if c' = c then (c', v' + v) :: rest else (c', v') :: addToCat rest c v

/-- Dict lookup. -/
def lookupCat : List (List Char × Int) → List Char → Option Int
  | [], _ => none
  | (c', v') :: rest, c => if c' = c then some v' else lookupCat rest c

/-- The `budget_by_cat` loop body over a list of months. -/
def bbcMonths (budgets : List BudgetEntry) (year : Int) :
    List Int → List (List Char × Int) → List (List Char × Int)
  | [], acc => acc
  | m :: ms, acc =>
    bbcMonths budgets year ms
      ((get_budget_for_month budgets year m).foldl
        (fun a b => addToCat a b.category b.monthly_budget) acc)

/-- Model of `budget_by_cat`: per-category cumulative budget over months
`1..current_month` of the year. -/
def budget_by_cat (budgets : List BudgetEntry) (year cm : Int) :
    List (List Char × Int) :=
  bbcMonths budgets year (monthRange 1 cm.toNat) []

/-- Model of `this_year_df.groupby("Category")["Amount"].sum()` (pandas returns
the groups keyed by category; the claims only consult it through
lookups, so the association list is kept in first-encounter order). -/
def cat_spent (txs : List Transaction) (year : Int) : List (List Char × Int) :=
  (txs.filter (fun t =>
    match t.date with
    | some d => d.1 == year
    | none => false)).foldl (fun a t => addToCat a t.category t.amount) []

/-- One row of the budget-vs-actual comparison table. -/
structure CompRow where
  category : List Char
  cum_budget : Int
  spent : Int
  rem : Int
  over : Bool
deriving DecidableEq

/-- The `예산대비실적` comparison: rows are `budget_by_cat.items()`, the
spending is left-merged onto them and missing spend filled with 0;
`잔여예산 = 누적예산 - 실제지출`, status `초과` iff negative. -/
def comparisonRows (budgets : List BudgetEntry) (txs : List Transaction)
    (year cm : Int) : List CompRow :=
  (budget_by_cat budgets year cm).map (fun p =>
    let s := (lookupCat (cat_spent txs year) p.1).getD 0
    { category := p.1
      cum_budget := p.2
      spent := s
      rem := p.2 - s
      over := decide (p.2 - s < 0) })

/-! ## Utilization percentages -/

/-- Dashboard line 818:
`usage_pct = (ytd_spent / ytd_budget * 100) if ytd_budget > 0 else 0`
(exact value of the float computation, over `ℚ`). -/
def usage_pct (ytd_spent ytd_budget : ℚ) : ℚ :=
  if 0 < ytd_budget then ytd_spent / ytd_budget * 100 else 0

/-- Pandas division `spent / budget`: `none` models the `inf`/`NaN`
produced on a zero denominator (replaced by 0 downstream). -/
def pandasRatio (spent budget : ℚ) : Option ℚ :=
  if budget = 0 then none else some (spent / budget)

/-- Pandas round-half-to-even to an integer. -/
def roundHalfEven (q : ℚ) : Int :=
  let f := Int.floor q
  let r := q - f
  if r < 1 / 2 then f
  else if 1 / 2 < r then f + 1
  else if f % 2 = 0 then f else f + 1

/-- Pandas `.round(1)`. -/
def roundTo1 (q : ℚ) : ℚ := (roundHalfEven (q * 10) : ℚ) / 10

/-- Excel sheet 4 `집행률(%)`:
`(spent / budget * 100).round(1)` with `±inf` replaced by 0 and `NaN`
filled with 0. -/
def excel_utilization (spent budget : ℚ) : ℚ :=
  match pandasRatio spent budget with
  | none => 0
  | some q => roundTo1 (q * 100)

/-! ## Transaction sheet rows, edit and delete -/

/-- A raw `Transactions` sheet row (columns A..I). -/
structure TxRow where
  date : List Char
  category : List Char
  description : List Char
  amount : Int
  payment_method : List Char
  receipt_url : List Char
  ocr_amount : List Char
  submitted_by : List Char
  timestamp : List Char
deriving DecidableEq

/-- The edit-form submit: update only columns B (category),
C (description), E (payment method) and H (submitted by) of the selected
row. -/
def editRow (r : TxRow) (cat desc pay sub : List Char) : TxRow :=
  { r with category := cat, description := desc,
           payment_method := pay, submitted_by := sub }

/-- Apply the edit to the sheet at 0-based data row `i`. -/
def editTransaction : List TxRow → Nat → List Char → List Char → List Char →
    List Char → List TxRow
  | [], _, _, _, _, _ => []
  | r :: rest, 0, cat, desc, pay, sub => editRow r cat desc pay sub :: rest
  | r :: rest, i + 1, cat, desc, pay, sub =>
    r :: editTransaction rest i cat desc pay sub

/-- The delete-form submit: `ws.delete_rows(selected + 2)`, physical
removal of the selected data row. -/
def deleteTransaction : List TxRow → Nat → List TxRow
  | [], _ => []
  | _ :: rest, 0 => rest
  | r :: rest, i + 1 => r :: deleteTransaction rest i

/-! ## Lemmas: decimal digits -/

/-- Value of a little-endian digit list. -/
def ofLE : List Nat → Nat
  | [] => 0
  | d :: ds => d + 10 * ofLE ds

theorem digitsLE_val : ∀ fuel n, n ≤ fuel → ofLE (digitsLE fuel n) = n := by
  intro fuel
  induction fuel with
  | zero =>
    intro n h
    interval_cases n
    rfl
  | succ f ih =>
    intro n h
    match n with
    | 0 => rfl
    | m + 1 =>
      have h2 : (m + 1) / 10 < m + 1 := Nat.div_lt_self (Nat.succ_pos m) (by omega)
      have h1 : (m + 1) / 10 ≤ f := by omega
      show ofLE (((m + 1) % 10) :: digitsLE f ((m + 1) / 10)) = m + 1
      simp only [ofLE, ih _ h1]
      omega

theorem digitsLE_lt : ∀ fuel n d, d ∈ digitsLE fuel n → d < 10 := by
  intro fuel
  induction fuel with
  | zero => intro n d h; simp [digitsLE] at h
  | succ f ih =>
    intro n d h
    match n with
    | 0 => simp [digitsLE] at h
    | m + 1 =>
      simp only [digitsLE, List.mem_cons] at h
      rcases h with h | h
      · subst h; exact Nat.mod_lt _ (by omega)
      · exact ih _ _ h

theorem digitsLE_ne_nil (n : Nat) (h : 1 ≤ n) : digitsLE n n ≠ [] := by
  match n, h with
  | m + 1, _ => simp [digitsLE]

theorem natDigits_ne_nil (n : Nat) : natDigits n ≠ [] := by
  unfold natDigits
  split
  · simp
  · next h =>
    have := digitsLE_ne_nil n (by omega)
    simp [this]

theorem digitChar_isDigit {d : Nat} (h : d < 10) : (digitChar d).isDigit = true := by
  interval_cases d <;> decide

theorem digitChar_toNat {d : Nat} (h : d < 10) : (digitChar d).toNat = 48 + d := by
  interval_cases d <;> decide

theorem natDigits_isDigit (n : Nat) : ∀ c ∈ natDigits n, c.isDigit = true := by
  intro c hc
  unfold natDigits at hc
  split at hc
  · simp at hc; subst hc; decide
  · simp only [List.mem_map, List.mem_reverse] at hc
    obtain ⟨d, hd, rfl⟩ := hc
    exact digitChar_isDigit (digitsLE_lt _ _ _ hd)

theorem digitsToNatFrom_append (l1 l2 : List Char) :
    ∀ a, digitsToNatFrom a (l1 ++ l2) = digitsToNatFrom (digitsToNatFrom a l1) l2 := by
  induction l1 with
  | nil => intro a; rfl
  | cons c cs ih => intro a; exact ih (10 * a + (c.toNat - 48))

theorem revMap_val : ∀ le : List Nat, (∀ d ∈ le, d < 10) →
    digitsToNatFrom 0 (le.reverse.map digitChar) = ofLE le := by
  intro le
  induction le with
  | nil => intro _; rfl
  | cons d ds ih =>
    intro h
    have hd : d < 10 := h d (by simp)
    have hds : ∀ x ∈ ds, x < 10 := fun x hx => h x (by simp [hx])
    simp only [List.reverse_cons, List.map_append, List.map_cons, List.map_nil,
      digitsToNatFrom_append, ih hds]
    have h1 : digitsToNatFrom (ofLE ds) [digitChar d] =
        10 * ofLE ds + ((digitChar d).toNat - 48) := rfl
    rw [h1, digitChar_toNat hd]
    show 10 * ofLE ds + (48 + d - 48) = d + 10 * ofLE ds
    omega

theorem digitsToNat_natDigits (n : Nat) : digitsToNat (natDigits n) = n := by
  unfold digitsToNat natDigits
  split
  · next h => subst h; decide
  · next h =>
    rw [revMap_val _ (fun d hd => digitsLE_lt _ _ _ hd)]
    exact digitsLE_val n n (Nat.le_refl n)

/-! ## Lemmas: character classes and runs -/

theorem class_ne_won {c : Char} (h : isDigitOrComma c = true) : c ≠ '원' := by
  intro e; subst e; exact absurd h (by decide)

theorem class_ne_space {c : Char} (h : isDigitOrComma c = true) : c ≠ ' ' := by
  intro e; subst e; exact absurd h (by decide)

theorem runLen_cons (c : Char) (cs : List Char) :
    runLen (c :: cs) = if isDigitOrComma c then runLen cs + 1 else 0 := rfl

theorem runLen_all_class :
    ∀ l : List Char, (∀ c ∈ l, isDigitOrComma c = true) → runLen l = l.length := by
  intro l
  induction l with
  | nil => intro _; rfl
  | cons c cs ih =>
    intro h
    rw [runLen_cons, if_pos (h c (by simp)), ih (fun x hx => h x (by simp [hx]))]
    rfl

theorem runLen_append_stop (l r : List Char) (c' : Char)
    (hl : ∀ c ∈ l, isDigitOrComma c = true) (hc : isDigitOrComma c' = false) :
    runLen (l ++ c' :: r) = l.length := by
  induction l with
  | nil => simp [runLen_cons, hc]
  | cons c cs ih =>
    rw [List.cons_append, runLen_cons, if_pos (hl c (by simp)),
      ih (fun x hx => hl x (by simp [hx]))]
    rfl

/-! ## Lemmas: `won_with_suffix` search -/

theorem tryLen_succ (s : List Char) (n : Nat) :
    tryLen s (n + 1) =
      if (s.drop (n + 1)).head? = some '원' then some (n + 1) else tryLen s n := rfl

theorem tryLen_none (s : List Char) (h : ∀ n, (s.drop n).head? ≠ some '원') :
    ∀ k, tryLen s k = none := by
  intro k
  induction k with
  | zero => rfl
  | succ n ih => rw [tryLen_succ, if_neg (h (n + 1)), ih]

theorem wonSuffixMatchAt_not_class {c : Char} (cs : List Char)
    (hc : isDigitOrComma c = false) : wonSuffixMatchAt (c :: cs) = none := by
  unfold wonSuffixMatchAt
  rw [runLen_cons, if_neg (by simp [hc])]
  rfl

theorem wonSuffixSearch_cons (c : Char) (cs : List Char) :
    wonSuffixSearch (c :: cs) =
      match wonSuffixMatchAt (c :: cs) with
      | some n => some ((c :: cs).take n)
      | none => wonSuffixSearch cs := rfl

theorem wonSuffixSearch_skip {c : Char} (cs : List Char)
    (hc : isDigitOrComma c = false) : wonSuffixSearch (c :: cs) = wonSuffixSearch cs := by
  rw [wonSuffixSearch_cons, wonSuffixMatchAt_not_class cs hc]

theorem wonSuffixSearch_prefix_skip :
    ∀ pre s : List Char, (∀ c ∈ pre, isDigitOrComma c = false) →
      wonSuffixSearch (pre ++ s) = wonSuffixSearch s := by
  intro pre s
  induction pre with
  | nil => intro _; rfl
  | cons c cs ih =>
    intro h
    rw [List.cons_append, wonSuffixSearch_skip _ (h c (by simp)),
      ih (fun x hx => h x (by simp [hx]))]

theorem wonSuffixSearch_all_class :
    ∀ f : List Char, (∀ c ∈ f, isDigitOrComma c = true) → wonSuffixSearch f = none := by
  intro f
  induction f with
  | nil => intro _; rfl
  | cons c cs ih =>
    intro h
    rw [wonSuffixSearch_cons]
    have hm : wonSuffixMatchAt (c :: cs) = none := by
      unfold wonSuffixMatchAt
      apply tryLen_none
      intro n hn
      have hx : '원' ∈ c :: cs :=
        List.drop_subset n _ (List.mem_of_mem_head? (by rw [hn]; simp))
      exact class_ne_won (h _ hx) rfl
    rw [hm]
    exact ih (fun x hx => h x (by simp [hx]))

theorem wonSuffixSearch_hit (f r : List Char)
    (hf : ∀ c ∈ f, isDigitOrComma c = true) (h1 : 1 ≤ f.length)
    (h12 : f.length ≤ 12) : wonSuffixSearch (f ++ '원' :: r) = some f := by
  match f, h1 with
  | c :: cs, _ =>
    rw [List.cons_append, wonSuffixSearch_cons]
    have hrun : runLen (c :: (cs ++ '원' :: r)) = (c :: cs).length := by
      have := runLen_append_stop (c :: cs) r '원' hf (by decide)
      simpa using this
    have hm : wonSuffixMatchAt (c :: (cs ++ '원' :: r)) = some (c :: cs).length := by
      unfold wonSuffixMatchAt
      rw [hrun, Nat.min_eq_right h12]
      have hlen : (c :: cs).length = cs.length + 1 := rfl
      rw [hlen, tryLen_succ]
      have hdrop : ((c :: (cs ++ '원' :: r)).drop (cs.length + 1)) = '원' :: r := by
        have : (c :: (cs ++ '원' :: r)) = (c :: cs) ++ '원' :: r := by simp
        rw [this, ← hlen, List.drop_left]
      rw [hdrop]
      simp
    rw [hm]
    have ht : (c :: (cs ++ '원' :: r)).take (c :: cs).length = c :: cs := by
      have he : (c :: (cs ++ '원' :: r)) = (c :: cs) ++ '원' :: r := by simp
      rw [he, List.take_left]
    show some ((c :: (cs ++ '원' :: r)).take (c :: cs).length) = some (c :: cs)
    rw [ht]

/-! ## Lemmas: `won_pattern` tokenizer -/

theorem dropWon_length (l : List Char) : (dropWon l).length ≤ l.length := by
  unfold dropWon
  split
  · simp
  · exact Nat.le_refl _

theorem wonTokensGo_succ_cons (fuel : Nat) (c : Char) (cs : List Char) :
    wonTokensGo (fuel + 1) (c :: cs) =
      if isDigitOrComma c then
        ((c :: cs).take (min 12 (runLen (c :: cs)))) ::
          wonTokensGo fuel (dropWon ((c :: cs).drop (min 12 (runLen (c :: cs)))))
      else wonTokensGo fuel cs := rfl

theorem wonTokensGo_fuel :
    ∀ fuel fuel' s, s.length ≤ fuel → s.length ≤ fuel' →
      wonTokensGo fuel s = wonTokensGo fuel' s := by
  intro fuel
  induction fuel with
  | zero =>
    intro fuel' s h _
    have hs : s = [] := List.eq_nil_of_length_eq_zero (by omega)
    subst hs
    cases fuel' <;> rfl
  | succ f ih =>
    intro fuel' s h h'
    match s with
    | [] => cases fuel' <;> rfl
    | c :: cs =>
      match fuel' with
      | 0 => simp at h'
      | f' + 1 =>
        rw [wonTokensGo_succ_cons, wonTokensGo_succ_cons]
        by_cases hc : isDigitOrComma c = true
        · rw [if_pos hc, if_pos hc]
          have hn : 1 ≤ min 12 (runLen (c :: cs)) := by
            rw [runLen_cons, if_pos hc]
            omega
          have hdrop : ((c :: cs).drop (min 12 (runLen (c :: cs)))).length ≤ cs.length := by
            rw [List.length_drop]
            simp only [List.length_cons]
            omega
          have hrest : (dropWon ((c :: cs).drop (min 12 (runLen (c :: cs))))).length ≤
              cs.length := le_trans (dropWon_length _) hdrop
          rw [ih f' _ (by simp at h; omega) (by simp at h'; omega)]
        · rw [if_neg hc, if_neg hc]
          exact ih f' cs (by simp at h; omega) (by simp at h'; omega)

theorem wonTokens_skip {c : Char} (s : List Char) (hc : isDigitOrComma c = false) :
    wonTokens (c :: s) = wonTokens s := by
  unfold wonTokens
  have : (c :: s).length = s.length + 1 := rfl
  rw [this, wonTokensGo_succ_cons, if_neg (by simp [hc])]

theorem wonTokens_prefix_skip :
    ∀ pre s : List Char, (∀ c ∈ pre, isDigitOrComma c = false) →
      wonTokens (pre ++ s) = wonTokens s := by
  intro pre s
  induction pre with
  | nil => intro _; rfl
  | cons c cs ih =>
    intro h
    rw [List.cons_append, wonTokens_skip _ (h c (by simp)),
      ih (fun x hx => h x (by simp [hx]))]

/-- A single class-run of at most 12 characters, standing alone or with
a trailing `'원'`, is one token. -/
theorem wonTokens_single_run (f post : List Char)
    (hf : ∀ c ∈ f, isDigitOrComma c = true) (h1 : 1 ≤ f.length)
    (h12 : f.length ≤ 12) (hpost : post = [] ∨ post = ['원']) :
    wonTokens (f ++ post) = [f] := by
  match f, h1 with
  | c :: cs, _ =>
    have hc : isDigitOrComma c = true := hf c (by simp)
    have hrun : runLen ((c :: cs) ++ post) = (c :: cs).length := by
      rcases hpost with h | h
      · subst h
        rw [List.append_nil]
        exact runLen_all_class _ hf
      · subst h
        exact runLen_append_stop _ [] '원' hf (by decide)
    have hmin : min 12 (runLen ((c :: cs) ++ post)) = (c :: cs).length := by
      rw [hrun]; exact Nat.min_eq_right h12
    unfold wonTokens
    rw [List.cons_append] at hmin ⊢
    rw [show (c :: (cs ++ post)).length = (cs ++ post).length + 1 from rfl,
      wonTokensGo_succ_cons, if_pos hc, hmin]
    have htake : (c :: (cs ++ post)).take (c :: cs).length = c :: cs := by
      have he : (c :: (cs ++ post)) = (c :: cs) ++ post := by simp
      rw [he, List.take_left]
    have hdrop : (c :: (cs ++ post)).drop (c :: cs).length = post := by
      have he : (c :: (cs ++ post)) = (c :: cs) ++ post := by simp
      rw [he, List.drop_left]
    rw [htake, hdrop]
    have : wonTokensGo (cs ++ post).length (dropWon post) = [] := by
      rcases hpost with h | h <;> subst h
      · cases (cs ++ ([] : List Char)).length <;> rfl
      · have hdw : dropWon ['원'] = [] := rfl
        rw [hdw]
        cases (cs ++ ['원']).length <;> rfl
    rw [this]

/-! ## Lemmas: substring containment and space stripping -/

theorem isPrefixB_append_self : ∀ l r : List Char, isPrefixB l (l ++ r) = true := by
  intro l r
  induction l with
  | nil => rfl
  | cons c cs ih => simp [isPrefixB, ih]

theorem containsSub_append_self (p r : List Char) : containsSub p (p ++ r) = true := by
  match p with
  | [] =>
    match r with
    | [] => rfl
    | c :: cs => simp [containsSub, isPrefixB]
  | c :: cs =>
    rw [List.cons_append]
    show (isPrefixB (c :: cs) (c :: (cs ++ r)) || containsSub (c :: cs) (cs ++ r)) = true
    rw [show c :: (cs ++ r) = (c :: cs) ++ r from rfl, isPrefixB_append_self]
    rfl

theorem stripSpaces_append (a b : List Char) :
    stripSpaces (a ++ b) = stripSpaces a ++ stripSpaces b := by
  simp [stripSpaces]

theorem stripSpaces_all_class (f : List Char)
    (hf : ∀ c ∈ f, isDigitOrComma c = true) : stripSpaces f = f := by
  unfold stripSpaces
  rw [List.filter_eq_self]
  intro c hc
  simp [class_ne_space (hf c hc)]

/-! ## Lemmas: folded maxima and minima -/

theorem foldl_max_mem (l : List Nat) : ∀ a, l.foldl max a = a ∨ l.foldl max a ∈ l := by
  induction l with
  | nil => intro a; exact Or.inl rfl
  | cons x xs ih =>
    intro a
    rw [List.foldl_cons]
    rcases ih (max a x) with h | h
    · rcases max_choice a x with hm | hm
      · rw [h, hm]; exact Or.inl rfl
      · rw [h, hm]; exact Or.inr (by simp)
    · exact Or.inr (by simp [h])

theorem le_foldl_max (l : List Nat) : ∀ a, a ≤ l.foldl max a := by
  induction l with
  | nil => intro a; exact Nat.le_refl a
  | cons x xs ih =>
    intro a
    rw [List.foldl_cons]
    exact le_trans (Nat.le_max_left a x) (ih _)

theorem mem_le_foldl_max (l : List Nat) : ∀ a x, x ∈ l → x ≤ l.foldl max a := by
  induction l with
  | nil => intro a x h; simp at h
  | cons y ys ih =>
    intro a x h
    rw [List.foldl_cons]
    rcases List.mem_cons.mp h with rfl | h
    · exact le_trans (Nat.le_max_right a x) (le_foldl_max ys _)
    · exact ih _ x h

theorem foldl_min_mem (l : List Nat) : ∀ a, l.foldl min a = a ∨ l.foldl min a ∈ l := by
  induction l with
  | nil => intro a; exact Or.inl rfl
  | cons x xs ih =>
    intro a
    rw [List.foldl_cons]
    rcases ih (min a x) with h | h
    · rcases min_choice a x with hm | hm
      · rw [h, hm]; exact Or.inl rfl
      · rw [h, hm]; exact Or.inr (by simp)
    · exact Or.inr (by simp [h])

/-! ## Lemmas: every extractor value is in `[100, 99_999_999]` -/

theorem extract_won_amount_inRange (s : List Char) :
    ∀ v ∈ extract_won_amount s, inRange v = true := by
  intro v hv
  unfold extract_won_amount at hv
  rw [List.mem_filterMap] at hv
  obtain ⟨tok, _, htok⟩ := hv
  simp only at htok
  split_ifs at htok with h1 h2
  · exact (Option.some.inj htok) ▸ h2

theorem scanForward_eq (l : List Char) (rest : List (List Char)) :
    scanForward (l :: rest) =
      match wonSuffixSearch l with
      | some tok =>
        if inRange (groupVal tok) then some (groupVal tok) else scanForward rest
      | none => scanForward rest := rfl

theorem scanForward_inRange : ∀ ls v, scanForward ls = some v → inRange v = true := by
  intro ls
  induction ls with
  | nil => intro v h; cases h
  | cons l rest ih =>
    intro v h
    rw [scanForward_eq] at h
    cases hs : wonSuffixSearch l with
    | none => rw [hs] at h; exact ih v h
    | some tok =>
      rw [hs] at h
      simp only at h
      by_cases hr : inRange (groupVal tok) = true
      · rw [if_pos hr] at h
        exact (Option.some.inj h) ▸ hr
      · rw [if_neg hr] at h
        exact ih v h

theorem strategy1_eq (l : List Char) (rest : List (List Char)) :
    strategy1 (l :: rest) =
      if containsSub anchorKW (stripSpaces l) then
        match
          (match wonSuffixSearch l with
           | some tok =>
             if inRange (groupVal tok) then some (groupVal tok) else none
           | none => none) with
        | some v => some v
        | none =>
          match scanForward rest with
          | some v => some v
          | none => strategy1 rest
      else strategy1 rest := rfl

theorem strategy1_inRange : ∀ ls v, strategy1 ls = some v → inRange v = true := by
  intro ls
  induction ls with
  | nil => intro v h; cases h
  | cons l rest ih =>
    intro v h
    rw [strategy1_eq] at h
    by_cases hk : containsSub anchorKW (stripSpaces l) = true
    · rw [if_pos hk] at h
      cases hs : wonSuffixSearch l with
      | none =>
        rw [hs] at h
        simp only at h
        cases hf : scanForward rest with
        | none => rw [hf] at h; simp only at h; exact ih v h
        | some w =>
          rw [hf] at h
          simp only at h
          exact (Option.some.inj h) ▸ scanForward_inRange rest w hf
      | some tok =>
        rw [hs] at h
        simp only at h
        by_cases hr : inRange (groupVal tok) = true
        · rw [if_pos hr] at h
          simp only at h
          exact (Option.some.inj h) ▸ hr
        · rw [if_neg hr] at h
          simp only at h
          cases hf : scanForward rest with
          | none => rw [hf] at h; simp only at h; exact ih v h
          | some w =>
            rw [hf] at h
            simp only at h
            exact (Option.some.inj h) ▸ scanForward_inRange rest w hf
    · rw [if_neg hk] at h
      exact ih v h

theorem mem_foldr_append {α β : Type} (g : β → List α) :
    ∀ (L : List β) (x : α), x ∈ L.foldr (fun pk acc => g pk ++ acc) [] →
      ∃ pk ∈ L, x ∈ g pk := by
  intro L
  induction L with
  | nil => intro x h; simp at h
  | cons b bs ih =>
    intro x h
    rw [List.foldr_cons, List.mem_append] at h
    rcases h with h | h
    · exact ⟨b, by simp, h⟩
    · obtain ⟨pk, hpk, hx⟩ := ih x h
      exact ⟨pk, by simp [hpk], hx⟩

theorem kwCands_inRange (l : List Char) (next : Option (List Char)) :
    ∀ p v, (p, v) ∈ kwCands l next → inRange v = true := by
  intro p v h
  unfold kwCands at h
  by_cases hex : line_has_exclude (stripSpaces l) = true
  · rw [if_pos hex] at h; simp at h
  · rw [if_neg hex] at h
    obtain ⟨pk, hpk, hx⟩ := mem_foldr_append _ _ _ h
    by_cases hkw : containsSub (stripSpaces pk.2) (stripSpaces l) = true
    · rw [if_pos hkw] at hx
      by_cases hne : extract_won_amount l ≠ []
      · rw [if_pos hne] at hx
        rw [List.mem_map] at hx
        obtain ⟨w, hw, he⟩ := hx
        injection he with he1 he2
        subst he2
        exact extract_won_amount_inRange l _ hw
      · rw [if_neg hne] at hx
        cases next with
        | none => simp at hx
        | some nl =>
          simp only at hx
          by_cases hexn : line_has_exclude nl = true
          · rw [if_pos hexn] at hx; simp at hx
          · rw [if_neg hexn] at hx
            rw [List.mem_map] at hx
            obtain ⟨w, hw, he⟩ := hx
            injection he with he1 he2
            subst he2
            exact extract_won_amount_inRange nl _ hw
    · rw [if_neg hkw] at hx; simp at hx

theorem strategy2cands_inRange :
    ∀ ls p v, (p, v) ∈ strategy2cands ls → inRange v = true := by
  intro ls
  induction ls with
  | nil => intro p v h; simp [strategy2cands] at h
  | cons l rest ih =>
    intro p v h
    rw [show strategy2cands (l :: rest) = kwCands l rest.head? ++ strategy2cands rest
      from rfl, List.mem_append] at h
    rcases h with h | h
    · exact kwCands_inRange l rest.head? p v h
    · exact ih p v h

theorem inRange_ge (v : Nat) (h : inRange v = true) : 100 ≤ v := by
  unfold inRange at h
  simp at h
  exact h.1

theorem pickBest_inRange (cands : List (Nat × Nat))
    (hall : ∀ pv ∈ cands, inRange pv.2 = true) :
    ∀ v, pickBest cands = some v → inRange v = true := by
  intro v h
  match cands with
  | [] => cases h
  | c :: cs =>
    unfold pickBest at h
    simp only at h
    set bp := (cs.map Prod.fst).foldl min c.1 with hbp
    set group := ((c :: cs).filter (fun x => x.1 = bp)).map Prod.snd with hgroup
    have hv : v = group.foldl max 0 := (Option.some.inj h).symm
    have hgrp_all : ∀ x ∈ group, inRange x = true := by
      intro x hx
      rw [hgroup, List.mem_map] at hx
      obtain ⟨pair, hpair, he⟩ := hx
      exact he ▸ hall pair (List.mem_of_mem_filter hpair)
    have hgrp_ne : group ≠ [] := by
      have hmem : ∃ pair ∈ c :: cs, pair.1 = bp := by
        rcases foldl_min_mem (cs.map Prod.fst) c.1 with hm | hm
        · exact ⟨c, by simp, hm.symm ▸ rfl⟩
        · rw [List.mem_map] at hm
          obtain ⟨pair, hpair, he⟩ := hm
          exact ⟨pair, by simp [hpair], he⟩
      obtain ⟨pair, hpair, he⟩ := hmem
      have : pair.2 ∈ group := by
        rw [hgroup, List.mem_map]
        refine ⟨pair, ?_, rfl⟩
        rw [List.mem_filter]
        exact ⟨hpair, by simp [he]⟩
      intro hnil
      rw [hnil] at this
      simp at this
    rcases foldl_max_mem group 0 with hm | hm
    · exfalso
      obtain ⟨x, hx⟩ := List.exists_mem_of_ne_nil group hgrp_ne
      have h100 : 100 ≤ x := inRange_ge x (hgrp_all x hx)
      have hle : x ≤ group.foldl max 0 := mem_le_foldl_max group 0 x hx
      omega
    · exact hv ▸ hgrp_all _ hm

/-- Every value the extractor core returns is within the plausibility
range `[100, 99_999_999]`. -/
theorem extract_core_inRange :
    ∀ ls v, extract_core ls = some v → 100 ≤ v ∧ v ≤ 99999999 := by
  intro ls v h
  unfold extract_core at h
  have hval : inRange v = true := by
    cases h1 : strategy1 ls with
    | some w =>
      rw [h1] at h
      simp only at h
      exact (Option.some.inj h) ▸ strategy1_inRange ls w h1
    | none =>
      rw [h1] at h
      simp only at h
      cases h2 : pickBest (strategy2cands ls) with
      | some w =>
        rw [h2] at h
        simp only at h
        have := pickBest_inRange (strategy2cands ls)
          (fun pv hpv => strategy2cands_inRange ls pv.1 pv.2 hpv) w h2
        exact (Option.some.inj h) ▸ this
      | none =>
        rw [h2] at h
        simp only at h
        cases h3 : extract_won_amount (joinLines ls) with
        | nil => rw [h3] at h; cases h
        | cons w ws =>
          rw [h3] at h
          simp only at h
          have hv : v = ws.foldl max w := (Option.some.inj h).symm
          have hmem : ws.foldl max w ∈ w :: ws := by
            rcases foldl_max_mem ws w with hm | hm
            · simp [hm]
            · simp [hm]
          rw [hv]
          exact extract_won_amount_inRange (joinLines ls) _ (h3 ▸ hmem)
  unfold inRange at hval
  simp at hval
  exact hval

/-! ## Claim support: the synthetic anchored line -/

theorem acceptedFormat_ne_nil {v : Nat} {f : List Char} (hf : acceptedFormat v f) :
    f ≠ [] := by
  intro he
  subst he
  exact natDigits_ne_nil v hf.2.1.symm

theorem groupVal_acceptedFormat {v : Nat} {f : List Char} (hf : acceptedFormat v f) :
    groupVal f = v := by
  unfold groupVal digitsToNat
  rw [hf.2.1]
  exact digitsToNat_natDigits v

theorem inRange_true {v : Nat} (h100 : 100 ≤ v) (h99 : v ≤ 99999999) :
    inRange v = true := by
  unfold inRange
  simp [h100, h99]

theorem synthline_search {v : Nat} {f : List Char} (hf : acceptedFormat v f) :
    wonSuffixSearch ("합계금액 ".toList ++ (f ++ ['원'])) = some f := by
  rw [wonSuffixSearch_prefix_skip _ _ (by decide)]
  have h1 : 1 ≤ f.length := by
    have := acceptedFormat_ne_nil hf
    cases f with
    | nil => exact absurd rfl this
    | cons c cs => simp
  exact wonSuffixSearch_hit f [] hf.1 h1 hf.2.2

theorem synthline_anchor {v : Nat} {f : List Char} (hf : acceptedFormat v f) :
    containsSub anchorKW (stripSpaces ("합계금액 ".toList ++ (f ++ ['원']))) = true := by
  rw [stripSpaces_append, stripSpaces_append]
  rw [show stripSpaces ("합계금액 ".toList) = anchorKW from by decide]
  rw [stripSpaces_all_class f hf.1]
  rw [show stripSpaces ['원'] = ['원'] from by decide]
  exact containsSub_append_self anchorKW (f ++ ['원'])

/-- C1: for every integer `v` with `100 ≤ v ≤ 99,999,999` and any accepted
thousands-separator formatting `f` of `v`, the extractor applied to the
synthetic line `"합계금액 {f}원"` yields the amount `v` (strategy 1 fires
on the anchored label), and the returned display string is the
thousands-separated rendering of `v`. -/
theorem C1_anchored_total_line (v : Nat) (f : List Char)
    (h100 : 100 ≤ v) (h99 : v ≤ 99999999) (hf : acceptedFormat v f) :
    extract_core ["합계금액 ".toList ++ (f ++ ['원'])] = some v ∧
      extract_amount ["합계금액 ".toList ++ (f ++ ['원'])] = some (pyFormat v) := by
  have hs1 : strategy1 ["합계금액 ".toList ++ (f ++ ['원'])] = some v := by
    rw [strategy1_eq, if_pos (synthline_anchor hf), synthline_search hf]
    simp only [groupVal_acceptedFormat hf, inRange_true h100 h99, if_true]
  constructor
  · unfold extract_core
    rw [hs1]
  · unfold extract_amount extract_core
    rw [hs1]
    rfl

/-- Witness for C1 at `v = 27190`, `f = "27,190"` (the standard
thousands-separated formatting). -/
theorem C1_anchored_total_line_witness :
    (100 ≤ 27190 ∧ 27190 ≤ 99999999 ∧ acceptedFormat 27190 ("27,190".toList)) ∧
      extract_core ["합계금액 27,190원".toList] = some 27190 := by
  refine ⟨⟨by decide, by decide, ⟨by decide, by decide, by decide⟩⟩, ?_⟩
  have h := (C1_anchored_total_line 27190 ("27,190".toList) (by decide) (by decide)
    ⟨by decide, by decide, by decide⟩).1
  have he : "합계금액 27,190원".toList =
      "합계금액 ".toList ++ ("27,190".toList ++ ['원']) := by decide
  rw [he]
  exact h

/-- C10: strategy 1 applies no exclusion-keyword filtering to the lines
it scans forward: on the input whose `합계금액` line has no same-line
`…원` amount and whose next line is `"승인번호 1,234원"` (an
exclusion-keyword line), the extractor returns 1234 from that excluded
line, while strategy 2 alone would skip it and produce nothing. -/
theorem C10_strategy1_ignores_exclusions :
    extract_core ["합계금액".toList, "승인번호 1,234원".toList] = some 1234 ∧
      line_has_exclude (stripSpaces ("승인번호 1,234원".toList)) = true ∧
      pickBest (strategy2cands ["합계금액".toList, "승인번호 1,234원".toList]) = none := by
  exact ⟨by decide, by decide, by decide⟩

/-- C2: the resolver returns exactly the entries matching the queried
year and month — membership in the result is equivalent to membership in
the input with `year` and `month` equal to the query, with no fallback —
and on `[{A, 2025, 3, 5000}]` the query (2025, 3) returns the one entry
while (2025, 4) returns the empty list. -/
theorem C2_strict_resolution :
    (∀ (budgets : List BudgetEntry) (year month : Int) (b : BudgetEntry),
        b ∈ get_budget_for_month budgets year month ↔
          b ∈ budgets ∧ b.year = year ∧ b.month = month) ∧
      get_budget_for_month [⟨"A".toList, 5000, 2025, 3, []⟩] 2025 3 =
        [⟨"A".toList, 5000, 2025, 3, []⟩] ∧
      get_budget_for_month [⟨"A".toList, 5000, 2025, 3, []⟩] 2025 4 = [] := by
  refine ⟨?_, by decide, by decide⟩
  intro budgets year month b
  unfold get_budget_for_month
  rw [List.mem_filter]
  simp [and_assoc]

/-- Example data for the carryover scenario: budgets Jan = 10000 and
Feb = 10000, one January expense of 12000. -/
def carryBudgets : List BudgetEntry :=
  [⟨"A".toList, 10000, 2025, 1, []⟩, ⟨"A".toList, 10000, 2025, 2, []⟩]

def carryTxs : List Transaction := [⟨some (2025, 1), "A".toList, 12000⟩]

/-- C3: the dashboard computes `carryover = prior_months_budget −
prior_months_spent`, `available_budget = monthly_budget + carryover` and
`remaining = available_budget − this_month_spent` (all over `Int`, so
possibly negative); the prior budget sum ranges over months
`1..current_month−1`, and — for transactions with calendar-valid months —
the prior spent sum is exactly the sum over months `1..current_month−1`
of the year.  On budgets Jan=10000, Feb=10000 and spend Jan=12000 the
February figures are `carryover = -2000` and `available = 8000`. -/
theorem C3_carryover_accounting :
    (∀ (budgets : List BudgetEntry) (txs : List Transaction) (year cm : Int),
      (∀ t ∈ txs, ∀ d, t.date = some d → 1 ≤ d.2 ∧ d.2 ≤ 12) →
      (dashboard budgets txs year cm).carryover =
          prevMonthsBudget budgets year cm - prevMonthsSpent txs year cm ∧
        prevMonthsBudget budgets year cm =
          ((monthRange 1 (cm - 1).toNat).map
            (fun m => monthly_budget_total budgets year m)).sum ∧
        prevMonthsSpent txs year cm =
          sumAmounts (txs.filter (fun t =>
            match t.date with
            | some d => d.1 == year && 1 ≤ d.2 && d.2 < cm
            | none => false)) ∧
        (dashboard budgets txs year cm).available_budget =
          (dashboard budgets txs year cm).monthly_budget +
            (dashboard budgets txs year cm).carryover ∧
        (dashboard budgets txs year cm).remaining =
          (dashboard budgets txs year cm).available_budget -
            thisMonthSpent txs year cm) ∧
      (dashboard carryBudgets carryTxs 2025 2).carryover = -2000 ∧
      (dashboard carryBudgets carryTxs 2025 2).available_budget = 8000 := by
  refine ⟨?_, by decide, by decide⟩
  intro budgets txs year cm hvalid
  refine ⟨rfl, rfl, ?_, rfl, rfl⟩
  unfold prevMonthsSpent
  congr 1
  apply List.filter_congr
  intro t ht
  cases hd : t.date with
  | none => simp
  | some d =>
    have h1 : 1 ≤ d.2 := (hvalid t ht d hd).1
    simp [h1]

/-- Witness for C3 on the concrete carryover scenario. -/
theorem C3_carryover_accounting_witness :
    (∀ t ∈ carryTxs, ∀ d : Int × Int, t.date = some d → 1 ≤ d.2 ∧ d.2 ≤ 12) ∧
      (dashboard carryBudgets carryTxs 2025 2).carryover =
        prevMonthsBudget carryBudgets 2025 2 - prevMonthsSpent carryTxs 2025 2 :=
  ⟨by decide, (C3_carryover_accounting.1 carryBudgets carryTxs 2025 2 (by decide)).1⟩

/-! ## Claim support: month = 0 entries and aggregation -/

theorem get_budget_month0_filter (budgets : List BudgetEntry) (y m : Int)
    (hm : m ≠ 0) :
    get_budget_for_month (budgets.filter (fun b => b.month != 0)) y m =
      get_budget_for_month budgets y m := by
  unfold get_budget_for_month
  rw [List.filter_filter]
  apply List.filter_congr
  intro b _
  by_cases hb : b.month = 0
  · have : (b.month == m) = false := by
      rw [beq_eq_false_iff_ne]
      rw [hb]
      exact fun e => hm e.symm
    simp [this]
  · simp [hb]

theorem monthly_budget_total_month0 (budgets : List BudgetEntry) (y m : Int)
    (hm : m ≠ 0) :
    monthly_budget_total (budgets.filter (fun b => b.month != 0)) y m =
      monthly_budget_total budgets y m := by
  unfold monthly_budget_total
  rw [get_budget_month0_filter budgets y m hm]

theorem monthRange_pos (len : Nat) : ∀ m ∈ monthRange 1 len, 1 ≤ m := by
  intro m hm
  obtain ⟨n, hn, he⟩ := List.mem_map.mp hm
  subst he
  have h1 := (List.mem_range'_1.mp hn).1
  show Int.ofNat 1 ≤ Int.ofNat n
  exact Int.ofNat_le.mpr h1

theorem monthSum_month0 (budgets : List BudgetEntry) (y : Int) (len : Nat) :
    ((monthRange 1 len).map
        (fun m => monthly_budget_total (budgets.filter (fun b => b.month != 0)) y m)).sum =
      ((monthRange 1 len).map (fun m => monthly_budget_total budgets y m)).sum := by
  congr 1
  apply List.map_congr_left
  intro m hm
  have h1 : 1 ≤ m := monthRange_pos len m hm
  exact monthly_budget_total_month0 budgets y m (by omega)

theorem bbcMonths_month0 (budgets : List BudgetEntry) (y : Int) :
    ∀ (ms : List Int), (∀ m ∈ ms, m ≠ 0) → ∀ acc,
      bbcMonths (budgets.filter (fun b => b.month != 0)) y ms acc =
        bbcMonths budgets y ms acc := by
  intro ms
  induction ms with
  | nil => intro _ acc; rfl
  | cons m rest ih =>
    intro h acc
    show bbcMonths _ y rest _ = bbcMonths _ y rest _
    rw [get_budget_month0_filter budgets y m (h m (by simp))]
    exact ih (fun x hx => h x (by simp [hx])) _

/-- C7: for any queried month `m` with `1 ≤ m ≤ 12`, no `month = 0` entry
can appear in the resolver's output, and all the aggregates built on the
resolver — the current-month total, the prior-months budget, the
cumulative (year-to-date) budget and the per-category cumulative budget —
are unchanged when every `month = 0` entry is removed first: such entries
are excluded from all aggregation until migrated to a concrete month. -/
theorem C7_month0_excluded_from_aggregation :
    ∀ (budgets : List BudgetEntry) (year m cm : Int),
      1 ≤ m → m ≤ 12 →
      (∀ b ∈ get_budget_for_month budgets year m, b.month ≠ 0) ∧
        monthly_budget_total (budgets.filter (fun b => b.month != 0)) year m =
          monthly_budget_total budgets year m ∧
        prevMonthsBudget (budgets.filter (fun b => b.month != 0)) year cm =
          prevMonthsBudget budgets year cm ∧
        cumulative_budget (budgets.filter (fun b => b.month != 0)) year cm =
          cumulative_budget budgets year cm ∧
        budget_by_cat (budgets.filter (fun b => b.month != 0)) year cm =
          budget_by_cat budgets year cm := by
  intro budgets year m cm h1 h12
  refine ⟨?_, monthly_budget_total_month0 _ _ _ (by omega), ?_, ?_, ?_⟩
  · intro b hb
    unfold get_budget_for_month at hb
    rw [List.mem_filter] at hb
    have hb2 := hb.2
    simp only [Bool.and_eq_true, beq_iff_eq] at hb2
    omega
  · unfold prevMonthsBudget
    exact monthSum_month0 budgets year _
  · unfold cumulative_budget
    exact monthSum_month0 budgets year _
  · unfold budget_by_cat
    exact bbcMonths_month0 budgets year _
      (fun x hx => by have := monthRange_pos _ x hx; omega) []

/-- Concrete data with a legacy `month = 0` entry. -/
def month0Budgets : List BudgetEntry :=
  [⟨"A".toList, 500, 2025, 0, []⟩, ⟨"A".toList, 700, 2025, 3, []⟩]

/-- Witness for C7 on data containing a `month = 0` entry. -/
theorem C7_month0_excluded_from_aggregation_witness :
    ((1 : Int) ≤ 3 ∧ (3 : Int) ≤ 12) ∧
      budget_by_cat (month0Budgets.filter (fun b => b.month != 0)) 2025 4 =
        budget_by_cat month0Budgets 2025 4 :=
  ⟨⟨by decide, by decide⟩,
    (C7_month0_excluded_from_aggregation month0Budgets 2025 3 4
      (by decide) (by decide)).2.2.2.2⟩

/-- C8: utilization is `spent / budget × 100` when the budget is
positive, and is defined as `0` when the budget is `0` (also for nonzero
spend): the guarded dashboard `usage_pct` returns the exact ratio, and
the excel sheet's division — whose zero-denominator `inf`/`NaN` results
are replaced by 0 — returns the ratio up to its final `.round(1)`
display step. -/
theorem C8_utilization_zero_budget :
    ∀ s b : ℚ,
      (b = 0 → usage_pct s b = 0 ∧ excel_utilization s b = 0) ∧
        (0 < b → usage_pct s b = s / b * 100 ∧
          excel_utilization s b = roundTo1 (s / b * 100)) := by
  intro s b
  constructor
  · intro hb
    subst hb
    constructor
    · unfold usage_pct
      rw [if_neg (lt_irrefl 0)]
    · unfold excel_utilization pandasRatio
      rw [if_pos rfl]
  · intro hb
    constructor
    · unfold usage_pct
      rw [if_pos hb]
    · unfold excel_utilization pandasRatio
      rw [if_neg (ne_of_gt hb)]

/-- Witness for C8: a positive budget and a zero budget with nonzero
spend. -/
theorem C8_utilization_zero_budget_witness :
    (0 : ℚ) < 200 ∧ usage_pct 50 200 = 50 / 200 * 100 ∧
      (0 : ℚ) = 0 ∧ usage_pct 50 0 = 0 ∧ excel_utilization 50 0 = 0 :=
  ⟨by norm_num, ((C8_utilization_zero_budget 50 200).2 (by norm_num)).1,
    rfl, ((C8_utilization_zero_budget 50 0).1 rfl).1,
    ((C8_utilization_zero_budget 50 0).1 rfl).2⟩

/-! ## Claim support: edits and deletes on the transaction sheet -/

theorem editTransaction_get :
    ∀ (rows : List TxRow) (i : Nat) (cat desc pay sub : List Char) (j : Nat),
      (editTransaction rows i cat desc pay sub).get? j =
        if j = i then (rows.get? j).map (fun r => editRow r cat desc pay sub)
        else rows.get? j := by
  intro rows
  induction rows with
  | nil =>
    intro i c d p s j
    cases i <;> cases j <;> simp [editTransaction]
  | cons r rest ih =>
    intro i c d p s j
    cases i with
    | zero =>
      cases j with
      | zero => simp [editTransaction]
      | succ j' => simp [editTransaction]
    | succ i' =>
      cases j with
      | zero => simp [editTransaction]
      | succ j' =>
        show (editTransaction rest i' c d p s).get? j' = _
        rw [ih i' c d p s j']
        by_cases hj : j' = i'
        · rw [if_pos hj, if_pos (by omega)]
          rfl
        · rw [if_neg hj, if_neg (by omega)]
          rfl

theorem deleteTransaction_get :
    ∀ (rows : List TxRow) (i j : Nat),
      (deleteTransaction rows i).get? j =
        rows.get? (if j < i then j else j + 1) := by
  intro rows
  induction rows with
  | nil => intro i j; cases i <;> split <;> simp [deleteTransaction]
  | cons r rest ih =>
    intro i j
    cases i with
    | zero =>
      rw [if_neg (by omega)]
      rfl
    | succ i' =>
      cases j with
      | zero =>
        rw [if_pos (by omega)]
        rfl
      | succ j' =>
        show (deleteTransaction rest i').get? j' = _
        rw [ih i' j']
        by_cases hj : j' < i'
        · rw [if_pos hj, if_pos (by omega)]
          rfl
        · rw [if_neg hj, if_neg (by omega)]
          rfl

theorem editTransaction_get_map {α : Type} (rows : List TxRow) (i : Nat)
    (cat desc pay sub : List Char) (f : TxRow → α)
    (hf : ∀ r, f (editRow r cat desc pay sub) = f r) (j : Nat) :
    ((editTransaction rows i cat desc pay sub).get? j).map f = (rows.get? j).map f := by
  rw [editTransaction_get]
  by_cases hj : j = i
  · rw [if_pos hj, Option.map_map]
    congr 1
    funext r
    exact hf r
  · rw [if_neg hj]

/-- C9: the transaction edit changes only category, description,
payment-method and submitted-by — the stored amount, date, receipt URL,
OCR amount and timestamp of every row (the edited one included) are
unchanged, and every other row is untouched entirely; deleting row `i`
removes exactly that row, every remaining row being one of the original
rows unchanged (so no other transaction's stored amount is altered). -/
theorem C9_edit_delete_frame :
    ∀ (rows : List TxRow) (i : Nat) (cat desc pay sub : List Char),
      (∀ j, ((editTransaction rows i cat desc pay sub).get? j).map (fun r => r.amount) =
          (rows.get? j).map (fun r => r.amount)) ∧
      (((editTransaction rows i cat desc pay sub).get? i).map (fun r => r.date) =
          (rows.get? i).map (fun r => r.date) ∧
        ((editTransaction rows i cat desc pay sub).get? i).map (fun r => r.receipt_url) =
          (rows.get? i).map (fun r => r.receipt_url) ∧
        ((editTransaction rows i cat desc pay sub).get? i).map (fun r => r.ocr_amount) =
          (rows.get? i).map (fun r => r.ocr_amount) ∧
        ((editTransaction rows i cat desc pay sub).get? i).map (fun r => r.timestamp) =
          (rows.get? i).map (fun r => r.timestamp)) ∧
      (∀ j, j ≠ i → (editTransaction rows i cat desc pay sub).get? j = rows.get? j) ∧
      (∀ j, (deleteTransaction rows i).get? j =
        rows.get? (if j < i then j else j + 1)) := by
  intro rows i cat desc pay sub
  refine ⟨fun j => editTransaction_get_map rows i cat desc pay sub
      (fun r => r.amount) (fun r => rfl) j,
    ⟨editTransaction_get_map rows i cat desc pay sub (fun r => r.date) (fun r => rfl) i,
      editTransaction_get_map rows i cat desc pay sub
        (fun r => r.receipt_url) (fun r => rfl) i,
      editTransaction_get_map rows i cat desc pay sub
        (fun r => r.ocr_amount) (fun r => rfl) i,
      editTransaction_get_map rows i cat desc pay sub
        (fun r => r.timestamp) (fun r => rfl) i⟩,
    ?_, fun j => deleteTransaction_get rows i j⟩
  intro j hj
  rw [editTransaction_get, if_neg hj]

/-- Two concrete sheet rows. -/
def txRowsEx : List TxRow :=
  [⟨"2025-01-01".toList, "A".toList, "d1".toList, 5000, "카드".toList, [], [],
    "u".toList, []⟩,
   ⟨"2025-01-02".toList, "B".toList, "d2".toList, 700, "현금".toList, [], [],
    "v".toList, []⟩]

/-- Witness for C9: editing row 0 leaves row 1 and the amounts intact,
deleting row 0 leaves row 1 as the first remaining row. -/
theorem C9_edit_delete_frame_witness :
    (1 : Nat) ≠ 0 ∧
      (editTransaction txRowsEx 0 "X".toList "y".toList "z".toList "w".toList).get? 1 =
        txRowsEx.get? 1 ∧
      ((editTransaction txRowsEx 0 "X".toList "y".toList "z".toList "w".toList).get? 0).map
          (fun r => r.amount) = (txRowsEx.get? 0).map (fun r => r.amount) ∧
      (deleteTransaction txRowsEx 0).get? 0 =
        txRowsEx.get? (if 0 < 0 then 0 else 0 + 1) := by
  have h := C9_edit_delete_frame txRowsEx 0 "X".toList "y".toList "z".toList "w".toList
  exact ⟨by decide, h.2.2.1 1 (by decide), h.1 0, h.2.2.2 0⟩

/-- C6 counterexample: a response carrying a service error and a
successful response whose recognized text is absent (a successful OCR run
that found no plausible amount) produce the identical result
`(none, none)` — the two cases are collapsed. -/
theorem C6_error_collapse_counterexample :
    extract_amount_from_image ⟨"deadline exceeded".toList, none⟩ = (none, none) ∧
      extract_amount_from_image ⟨[], none⟩ = (none, none) ∧
      extract_amount_from_image ⟨"deadline exceeded".toList, none⟩ =
        extract_amount_from_image ⟨[], none⟩ :=
  ⟨by decide, by decide, by decide⟩

/-- C6 (amended): a service-error response always yields `(none, none)`,
while a successful response with *nonempty* recognized text carries that
text in the second component, so those two results differ observably;
only a successful response with empty or absent text is collapsed with
the error case. -/
theorem C6_error_vs_nosignal_amended :
    ∀ (e : OCRResponse) (t : List Char),
      e.errorMsg ≠ [] → t ≠ [] →
      extract_amount_from_image e = (none, none) ∧
        (extract_amount_from_image ⟨[], some t⟩).2 = some t ∧
        extract_amount_from_image e ≠ extract_amount_from_image ⟨[], some t⟩ := by
  intro e t he ht
  have h1 : extract_amount_from_image e = (none, none) := by
    unfold extract_amount_from_image
    rw [if_pos he]
  have h2 : (extract_amount_from_image ⟨[], some t⟩).2 = some t := by
    unfold extract_amount_from_image
    rw [if_neg (by simp)]
    show (if t = [] then ((none, none) : Option (List Char) × Option (List Char))
      else (extract_amount (splitNewline t), some t)).2 = some t
    rw [if_neg ht]
  refine ⟨h1, h2, ?_⟩
  intro hcontra
  have hsnd := congrArg Prod.snd hcontra
  rw [h1, h2] at hsnd
  exact Option.noConfusion hsnd

/-- Witness for the amended C6. -/
theorem C6_error_vs_nosignal_amended_witness :
    "boom".toList ≠ [] ∧ "abc".toList ≠ [] ∧
      extract_amount_from_image ⟨"boom".toList, none⟩ ≠
        extract_amount_from_image ⟨[], some ("abc".toList)⟩ :=
  ⟨by decide, by decide,
    (C6_error_vs_nosignal_amended ⟨"boom".toList, none⟩ ("abc".toList)
      (by decide) (by decide)).2.2⟩

/-! ## Claim support: the budget-vs-actual table -/

theorem lookupCat_none : ∀ (l : List (List Char × Int)) (c : List Char),
    lookupCat l c = none → ¬ c ∈ l.map Prod.fst := by
  intro l
  induction l with
  | nil => intro c _ h; simp at h
  | cons p rest ih =>
    intro c hn hm
    obtain ⟨c', v'⟩ := p
    unfold lookupCat at hn
    by_cases hp : c' = c
    · rw [if_pos hp] at hn
      exact Option.noConfusion hn
    · rw [if_neg hp] at hn
      rw [List.map_cons, List.mem_cons] at hm
      rcases hm with hm | hm
      · exact hp hm.symm
      · exact ih c hn hm

/-- Budget for category A only; spending by category B only. -/
def c5Budgets : List BudgetEntry := [⟨"A".toList, 1000, 2025, 1, []⟩]

def c5Txs : List Transaction := [⟨some (2025, 1), "B".toList, 500⟩]

/-- C5 counterexample: category B has 500 of spend in the target year and
no budget entry, yet the budget-vs-actual rows list only category A —
the spend-only category does not appear at all (so it cannot contribute
zero budget and its spend as over-budget). -/
theorem C5_spend_only_missing_counterexample :
    cat_spent c5Txs 2025 = [("B".toList, 500)] ∧
      (comparisonRows c5Budgets c5Txs 2025 1).map (fun r => r.category) =
        ["A".toList] :=
  ⟨by decide, by decide⟩

/-- C5 (amended): the budget-vs-actual table contains exactly the
categories of `budget_by_cat` (those with at least one budget entry in
months `1..current_month` of the year); a category with transactions but
no matching budget entry is omitted from the table entirely. -/
theorem C5_budget_categories_only_amended :
    ∀ (budgets : List BudgetEntry) (txs : List Transaction) (year cm : Int),
      (comparisonRows budgets txs year cm).map (fun r => r.category) =
          (budget_by_cat budgets year cm).map Prod.fst ∧
        (∀ c, lookupCat (budget_by_cat budgets year cm) c = none →
          ¬ c ∈ (comparisonRows budgets txs year cm).map (fun r => r.category)) := by
  intro budgets txs year cm
  have hmap : (comparisonRows budgets txs year cm).map (fun r => r.category) =
      (budget_by_cat budgets year cm).map Prod.fst := by
    unfold comparisonRows
    rw [List.map_map]
    rfl
  refine ⟨hmap, ?_⟩
  intro c hnone hmem
  rw [hmap] at hmem
  exact lookupCat_none _ c hnone hmem

/-- Witness for the amended C5: category B has no budget entry and is
absent from the table. -/
theorem C5_budget_categories_only_amended_witness :
    lookupCat (budget_by_cat c5Budgets 2025 1) ("B".toList) = none ∧
      ¬ "B".toList ∈ (comparisonRows c5Budgets c5Txs 2025 1).map (fun r => r.category) :=
  ⟨by decide,
    (C5_budget_categories_only_amended c5Budgets c5Txs 2025 1).2 ("B".toList) (by decide)⟩

/-! ## Claim support: out-of-range tokens -/

theorem inRange_false {v : Nat} (hv : v < 100 ∨ 99999999 < v) :
    inRange v = false := by
  unfold inRange
  rcases hv with h | h <;> simp <;> omega

theorem filterMap_singleton {α β : Type} (g : α → Option β) (a : α)
    (h : g a = none) : List.filterMap g [a] = [] := by
  rw [List.filterMap_cons, h]
  rfl

theorem extract_won_amount_single_token {v : Nat} {f : List Char}
    (hf : acceptedFormat v f) (hv : inRange v = false)
    (pre post : List Char) (hpre : ∀ c ∈ pre, isDigitOrComma c = false)
    (hpost : post = [] ∨ post = ['원']) :
    extract_won_amount (pre ++ (f ++ post)) = [] := by
  have h1 : 1 ≤ f.length := by
    have := acceptedFormat_ne_nil hf
    cases f with
    | nil => exact absurd rfl this
    | cons c cs => simp
  unfold extract_won_amount
  rw [wonTokens_prefix_skip pre _ hpre,
    wonTokens_single_run f post hf.1 h1 hf.2.2 hpost]
  apply filterMap_singleton
  show (if f.filter (fun c => c ≠ ',') ≠ [] ∧
        (f.filter (fun c => c ≠ ',')).all Char.isDigit then
      if inRange (digitsToNat (f.filter (fun c => c ≠ ','))) then
        some (digitsToNat (f.filter (fun c => c ≠ ',')))
      else none
    else none) = none
  rw [hf.2.1, if_pos ⟨natDigits_ne_nil v, List.all_eq_true.mpr (natDigits_isDigit v)⟩,
    digitsToNat_natDigits, hv]
  rfl

theorem foldr_append_nil {α β : Type} (g : β → List α) :
    ∀ L : List β, (∀ b ∈ L, g b = []) →
      L.foldr (fun pk acc => g pk ++ acc) [] = [] := by
  intro L
  induction L with
  | nil => intro _; rfl
  | cons b bs ih =>
    intro h
    rw [List.foldr_cons, h b (by simp), List.nil_append]
    exact ih (fun x hx => h x (by simp [hx]))

theorem strategy1_single_none {v : Nat} {f : List Char} (hf : acceptedFormat v f)
    (hv : inRange v = false) (pre post : List Char)
    (hpre : ∀ c ∈ pre, isDigitOrComma c = false)
    (hpost : post = [] ∨ post = ['원']) :
    strategy1 [pre ++ (f ++ post)] = none := by
  have h1 : 1 ≤ f.length := by
    have := acceptedFormat_ne_nil hf
    cases f with
    | nil => exact absurd rfl this
    | cons c cs => simp
  rw [strategy1_eq]
  by_cases hk : containsSub anchorKW (stripSpaces (pre ++ (f ++ post))) = true
  · rw [if_pos hk]
    rcases hpost with hp | hp
    · subst hp
      have hsearch : wonSuffixSearch (pre ++ (f ++ [])) = none := by
        rw [wonSuffixSearch_prefix_skip pre _ hpre, List.append_nil]
        exact wonSuffixSearch_all_class f hf.1
      rw [hsearch]
      rfl
    · subst hp
      have hsearch : wonSuffixSearch (pre ++ (f ++ ['원'])) = some f := by
        rw [wonSuffixSearch_prefix_skip pre _ hpre]
        exact wonSuffixSearch_hit f [] hf.1 h1 hf.2.2
      rw [hsearch]
      have hgr : inRange (groupVal f) = false := by
        rw [groupVal_acceptedFormat hf]
        exact hv
      dsimp only
      rw [hgr]
      rfl
  · rw [if_neg hk]
    rfl

theorem strategy2cands_single_none (line : List Char)
    (hewa : extract_won_amount line = []) : strategy2cands [line] = [] := by
  show kwCands line ([] : List (List Char)).head? ++ strategy2cands [] = []
  rw [show strategy2cands [] = [] from rfl, List.append_nil]
  show kwCands line none = []
  unfold kwCands
  by_cases hex : line_has_exclude (stripSpaces line) = true
  · rw [if_pos hex]
  · rw [if_neg hex]
    apply foldr_append_nil
    intro pk _
    by_cases hkw : containsSub (stripSpaces pk.2) (stripSpaces line) = true
    · rw [if_pos hkw, if_neg (by simp [hewa])]
    · rw [if_neg hkw]

/-- C4 counterexample: `v = 123,456,789,012,345` is far above the range
bound, the shown line contains only that number (in its standard
thousands-separated formatting, with a total-label); the claim asserts no
candidate can come from it, yet the tokenizer splits the 19-character
numeral into the chunks `123,456,789,` and `012,345`, the second chunk
yields the candidate 12345, and the extractor returns it. -/
theorem C4_oversized_number_counterexample :
    extract_core ["합계 123,456,789,012,345원".toList] = some 12345 ∧
      extract_won_amount ("합계 123,456,789,012,345원".toList) = [12345] ∧
      ("합계 123,456,789,012,345원".toList).filter Char.isDigit =
        natDigits 123456789012345 :=
  ⟨by decide, by decide, by decide⟩

/-- C4 (amended): for an out-of-range value `v` whose formatted numeral
is short enough to be one token (at most 12 characters — which every
accepted formatting of the claimed bound 99,999,999 is), a line that is
that token with any non-numeric prefix and an optional `'원'` yields no
candidate and the whole extractor returns nothing on it; and the
extractor never returns any value outside `[100, 99_999_999]`.  (Formatted
numerals longer than 12 characters are split into chunks that can yield
in-range candidates — see the counterexample.) -/
theorem C4_out_of_range_token_amended :
    ∀ (v : Nat) (f pre post : List Char),
      (v < 100 ∨ 99999999 < v) → acceptedFormat v f →
      (∀ c ∈ pre, isDigitOrComma c = false) → (post = [] ∨ post = ['원']) →
      extract_won_amount (pre ++ (f ++ post)) = [] ∧
        extract_core [pre ++ (f ++ post)] = none ∧
        (∀ ls w, extract_core ls = some w → 100 ≤ w ∧ w ≤ 99999999) := by
  intro v f pre post hv hf hpre hpost
  have hvr : inRange v = false := inRange_false hv
  have hewa := extract_won_amount_single_token hf hvr pre post hpre hpost
  refine ⟨hewa, ?_, extract_core_inRange⟩
  unfold extract_core
  rw [strategy1_single_none hf hvr pre post hpre hpost]
  rw [strategy2cands_single_none _ hewa]
  rw [show joinLines [pre ++ (f ++ post)] = pre ++ (f ++ post) from rfl, hewa]
  rfl

/-- Witness for the amended C4 at `v = 50` on the line `"합계 50원"`. -/
theorem C4_out_of_range_token_amended_witness :
    ((50 < 100 ∨ 99999999 < 50) ∧ acceptedFormat 50 ("50".toList)) ∧
      extract_core ["합계 ".toList ++ ("50".toList ++ ['원'])] = none :=
  ⟨⟨Or.inl (by decide), ⟨by decide, by decide, by decide⟩⟩,
    (C4_out_of_range_token_amended 50 ("50".toList) ("합계 ".toList) ['원']
      (Or.inl (by decide)) ⟨by decide, by decide, by decide⟩ (by decide)
      (Or.inr rfl)).2.1⟩

end ChurchBudget
